import Mathlib

/-!
Verification development for the kobold ObjectProperty decode engine
(`src/kobold/src/object_property/serialization.rs` and its Python binding).

The Rust source is embedded shallowly: machine integers become `Nat` with
explicit wrapping where the source wraps, byte buffers become `List Nat`
(each element a byte value), fallible operations return `Except DeError`,
and the one aborting path in the source (`todo!()`) is modelled by an outer
`Option` whose `none` stands for a panic/abort.

The bit cursor (`BitReader`), the property-flag constants, the `Value` tree
and the identity-strategy/type-registry side live in repository files that
are not part of this slice; those are modelled from the specification and
are marked as such in their doc comments.
-/

/-- Error kinds of the decode engine. The source uses `anyhow` errors built
at each failure site; the specification fixes exactly these kinds. -/
inductive DeError where
  | Truncated
  | CompressionSizeMismatch
  | ZlibError
  | RecursionLimitExceeded
deriving Repr, DecidableEq

/-- SerializerFlags bit constants, from the `bitflags!` block in the source:
STATEFUL_FLAGS = 1 <<< 0. -/
def STATEFUL_FLAGS : Nat := 1

/-- COMPACT_LENGTH_PREFIXES = 1 <<< 1. -/
def COMPACT_LENGTH_PREFIXES : Nat := 2

/-- HUMAN_READABLE_ENUMS = 1 <<< 2. -/
def HUMAN_READABLE_ENUMS : Nat := 4

/-- WITH_COMPRESSION = 1 <<< 3. -/
def WITH_COMPRESSION : Nat := 8

/-- FORBID_DELTA_ENCODE = 1 <<< 4. -/
def FORBID_DELTA_ENCODE : Nat := 16

/-- The union of all five defined SerializerFlags bits. -/
def ALL_SERIALIZER_FLAGS : Nat := 31

/-- bitflags `from_bits_truncate`: keep the defined bits of a raw word,
silently dropping unknown bits. -/
def from_bits_truncate (w : Nat) : Nat := w &&& ALL_SERIALIZER_FLAGS

/-- bitflags `contains` for a flag set: all bits of `b` are present in `a`. -/
def hasFlag (a b : Nat) : Bool := a &&& b = b

/-- Modelled from the spec: per-property visibility/encoding flag TRANSMIT
(the `PropertyFlags` constants live in `type_list.rs`, not in this slice;
the concrete bit positions are representation choices). -/
def PROP_TRANSMIT : Nat := 1

/-- Modelled from the spec: per-property flag PRIVILEGED_TRANSMIT. -/
def PROP_PRIVILEGED_TRANSMIT : Nat := 2

/-- Modelled from the spec: per-property flag DELTA_ENCODE. -/
def PROP_DELTA_ENCODE : Nat := 4

/-- Modelled from the spec: the bit cursor of `reader.rs` (not in this
slice). A read-only forward cursor over a byte slice holding a bit offset;
bits are taken least-significant-first within each byte, and byte-aligned
loads are little-endian. -/
structure BitReader where
  data : List Nat
  pos : Nat
deriving Repr, DecidableEq

/-- `BitReader::new` positions the cursor at the start of the buffer. -/
def BitReader.new (d : List Nat) : BitReader := ⟨d, 0⟩

/-- Bit `i` of the buffer, least-significant-first within each byte. -/
def bitGet (data : List Nat) (i : Nat) : Nat := data.getD (i / 8) 0 >>> (i % 8) &&& 1

/-- Value of `n` bits starting at bit offset `p`, assembled
least-significant-first. -/
def bitsValFrom (data : List Nat) (p : Nat) : Nat → Nat
  | 0 => 0
  | n + 1 => bitGet data p + 2 * bitsValFrom data (p + 1) n

/-- Modelled from the spec: `read_bit` consumes exactly one bit and fails
with `Truncated` when the cursor is exhausted. -/
def BitReader.read_bit (r : BitReader) : Except DeError (Bool × BitReader) :=
  if r.pos < 8 * r.data.length then
    .ok (bitGet r.data r.pos = 1, ⟨r.data, r.pos + 1⟩)
  else
    .error .Truncated

/-- Modelled from the spec: `read_value_bits n` consumes `n` bits and
assembles them into an unsigned integer, failing with `Truncated` on
insufficient input. -/
def BitReader.read_value_bits (r : BitReader) (n : Nat) : Except DeError (Nat × BitReader) :=
  if r.pos + n ≤ 8 * r.data.length then
    .ok (bitsValFrom r.data r.pos n, ⟨r.data, r.pos + n⟩)
  else
    .error .Truncated

/-- Modelled from the spec: `realign_to_byte` discards the bits remaining
in the current byte, advancing to the next byte boundary. -/
def BitReader.realign_to_byte (r : BitReader) : BitReader :=
  ⟨r.data, (r.pos + 7) / 8 * 8⟩

/-- Little-endian value of a byte list. -/
def leVal : List Nat → Nat
  | [] => 0
  | b :: rest => b + 256 * leVal rest

/-- Modelled from the spec: byte-aligned little-endian load of `k` bytes
(the 8/16/32/64-bit unsigned loads of the cursor). Callers realign before
any such load where mixed bit/byte reads occur. -/
def BitReader.load_n (k : Nat) (r : BitReader) : Except DeError (Nat × BitReader) :=
  let b := r.pos / 8
  if b + k ≤ r.data.length then
    .ok (leVal ((r.data.drop b).take k), ⟨r.data, (b + k) * 8⟩)
  else
    .error .Truncated

/-- `load_u8`. -/
def BitReader.load_u8 (r : BitReader) : Except DeError (Nat × BitReader) := r.load_n 1

/-- `load_u16`. -/
def BitReader.load_u16 (r : BitReader) : Except DeError (Nat × BitReader) := r.load_n 2

/-- `load_u32`. -/
def BitReader.load_u32 (r : BitReader) : Except DeError (Nat × BitReader) := r.load_n 4

/-- `load_u64`. -/
def BitReader.load_u64 (r : BitReader) : Except DeError (Nat × BitReader) := r.load_n 8

/-- Modelled from the spec: `read_bytes len`, byte-aligned, fails with
`Truncated` when fewer than `len` bytes remain. -/
def BitReader.read_bytes (r : BitReader) (len : Nat) : Except DeError (List Nat × BitReader) :=
  let b := r.pos / 8
  if b + len ≤ r.data.length then
    .ok ((r.data.drop b).take len, ⟨r.data, (b + len) * 8⟩)
  else
    .error .Truncated

/-- `byteorder`-style `read_u32::<LE>` on a byte slice: consumes the
leading four bytes of the slice. -/
def sliceReadU32 : List Nat → Except DeError (Nat × List Nat)
  | a :: b :: c :: d :: rest => .ok (leVal [a, b, c, d], rest)
  | _ => .error .Truncated

/-- `read_u8` on a byte slice: consumes the leading byte. -/
def sliceReadU8 : List Nat → Except DeError (Nat × List Nat)
  | b :: rest => .ok (b, rest)
  | _ => .error .Truncated

/-- `DeserializerOptions`, field for field from the source. The
`recursion_limit` is a `u8` in the source; it is carried as a `Nat` whose
arithmetic wraps modulo 256 exactly where the source's `u8` arithmetic
wraps. -/
structure DeserializerOptions where
  flags : Nat
  property_mask : Nat
  shallow : Bool
  manual_compression : Bool
  recursion_limit : Nat
deriving Repr, DecidableEq

/-- `DeserializerOptions::default()` from the source. -/
def DeserializerOptions.default : DeserializerOptions where
  flags := 0
  property_mask := PROP_TRANSMIT ||| PROP_PRIVILEGED_TRANSMIT
  shallow := false
  manual_compression := false
  recursion_limit := 255 / 2

/-- The deserializer state: its cursor and options (the `PhantomData`
type-tag of the source carries no data; the identity strategy it selects
is passed as a function where needed). -/
structure Deserializer where
  reader : BitReader
  options : DeserializerOptions
deriving Repr, DecidableEq

/-- Modelled from the spec: the decoded `Value` tree (its type lives
outside this slice), restricted to the variants this development
exercises. -/
inductive Value where
  | Empty
  | Unsigned (v : Nat)
  | Signed (v : Int)
  | Str (s : List Nat)
  | Object (fields : List (String × Value))
deriving Repr

/-- `Deserializer::decompress_data`: reads a 4-byte little-endian size,
zlib-decompresses the remaining bytes into the scratch buffer, checks the
declared size against the decompressed length, and builds a cursor over
the decompressed bytes. The external zlib decoder (`flate2`) is passed as
a function returning `none` on malformed compressed input. -/
def decompress_data (zlib : List Nat → Option (List Nat)) (data : List Nat) :
    Except DeError BitReader :=
  match sliceReadU32 data with
  | .error e => .error e
  | .ok (size, rest) =>
    match zlib rest with
    | none => .error .ZlibError
    | some out =>
      if out.length ≠ size then .error .CompressionSizeMismatch
      else .ok (BitReader.new out)

/-- `Deserializer::feed_data`: primes the cursor from a raw buffer, in
either manual-compression or automatic mode, replacing the configured
flags from the stream when STATEFUL_FLAGS is set. Returns the updated
deserializer (the source mutates `self`). -/
def feed_data (zlib : List Nat → Option (List Nat)) (self : Deserializer) (data : List Nat) :
    Except DeError Deserializer :=
  if self.options.manual_compression then
    match decompress_data zlib data with
    | .error e => .error e
    | .ok reader =>
      if hasFlag self.options.flags STATEFUL_FLAGS then
        match reader.load_u32 with
        | .error e => .error e
        | .ok (w, reader') =>
          .ok { self with
                reader := reader',
                options := { self.options with flags := from_bits_truncate w } }
      else
        .ok { self with reader := reader }
  else
    match
      (if hasFlag self.options.flags STATEFUL_FLAGS then
        match sliceReadU32 data with
        | .error e => .error e
        | .ok (w, rest) =>
          .ok (({ self.options with flags := from_bits_truncate w } : DeserializerOptions), rest)
      else
        .ok (self.options, data) : Except DeError (DeserializerOptions × List Nat))
    with
    | .error e => .error e
    | .ok (opts, data') =>
      if hasFlag opts.flags WITH_COMPRESSION then
        match sliceReadU8 data' with
        | .error e => .error e
        | .ok (ind, data'') =>
          if ind ≠ 0 then
            match decompress_data zlib data'' with
            | .error e => .error e
            | .ok reader => .ok { self with reader := reader, options := opts }
          else
            .ok { self with reader := BitReader.new data'', options := opts }
      else
        .ok { self with reader := BitReader.new data', options := opts }

/-- `Deserializer::read_compact_length_prefix`: one flag bit; set means the
value is the next 31 bits, clear means the next 7 bits. -/
def read_compact_length_prefix (r : BitReader) : Except DeError (Nat × BitReader) :=
  match r.read_bit with
  | .error e => .error e
  | .ok (is_large, r') =>
    if is_large then r'.read_value_bits 31 else r'.read_value_bits 7

/-- `read_str_len` (from the `impl_read_len!` macro): realign to a byte
boundary, then either the compact prefix or a fixed `u16` load. -/
def read_str_len (o : DeserializerOptions) (r : BitReader) : Except DeError (Nat × BitReader) :=
  let r' := r.realign_to_byte
  if hasFlag o.flags COMPACT_LENGTH_PREFIXES then
    read_compact_length_prefix r'
  else
    r'.load_u16

/-- `read_seq_len` (from the `impl_read_len!` macro): realign to a byte
boundary, then either the compact prefix or a fixed `u32` load. -/
def read_seq_len (o : DeserializerOptions) (r : BitReader) : Except DeError (Nat × BitReader) :=
  let r' := r.realign_to_byte
  if hasFlag o.flags COMPACT_LENGTH_PREFIXES then
    read_compact_length_prefix r'
  else
    r'.load_u32

/-- `Deserializer::read_str`: length prefix, then that many raw bytes. -/
def read_str (o : DeserializerOptions) (r : BitReader) : Except DeError (List Nat × BitReader) :=
  match read_str_len o r with
  | .error e => .error e
  | .ok (len, r') => r'.read_bytes len

/-- `Deserializer::deserialize_unsigned_bits`: `read_value_bits` widened to
`u64` (the value is already an unsigned integer below `2^64`). -/
def deserialize_unsigned_bits (r : BitReader) (n : Nat) : Except DeError (Nat × BitReader) :=
  r.read_value_bits n

/-- Interpretation of a 64-bit pattern as an `i64`. -/
def i64OfBits (u : Nat) : Int :=
  if u < 2 ^ 63 then (u : Int) else (u : Int) - 2 ^ 64

/-- The bit pattern of the Rust expression `(!0i64) << n` under release
semantics, where the shift amount is masked modulo the bit width. -/
def rustShlMaskedAllOnes (n : Nat) : Nat := (2 ^ 64 - 1) <<< (n % 64) % 2 ^ 64

/-- `Deserializer::deserialize_signed_bits`: reads `n` bits and
sign-extends by OR-ing `(!0) << n` onto the value when bit `n-1` is set
(the source's exact computation, shift masking included). -/
def deserialize_signed_bits (r : BitReader) (n : Nat) : Except DeError (Int × BitReader) :=
  match deserialize_unsigned_bits r n with
  | .error e => .error e
  | .ok (v, r') =>
    if v &&& 1 <<< (n - 1) ≠ 0 then
      .ok (i64OfBits (v ||| rustShlMaskedAllOnes n), r')
    else
      .ok (i64OfBits v, r')

/-- Modelled from the spec: a field descriptor, restricted to the two
shapes this development needs — a one-byte unsigned primitive and a nested
object (the full descriptor vocabulary lives in the external type
registry). -/
inductive PTypeDesc where
  | prim_u8
  | obj
deriving Repr, DecidableEq

/-- Modelled from the spec: one property of a type definition — name, type
descriptor and visibility/encoding flags, in wire order. -/
structure PropField where
  name : String
  desc : PTypeDesc
  flags : Nat
deriving Repr, DecidableEq

/-- Modelled from the spec: a resolved type definition is its ordered
field list. -/
def TypeDef := List PropField

/-- An identity strategy, per the spec contract: it consumes the
identity-specific bytes from the cursor and yields an optional type
definition (the registry is captured in the closure). -/
def IdentityStrategy := BitReader → Except DeError (Option TypeDef × BitReader)

/-- Replace the recursion limit of a deserializer. -/
def setLimit (s : Deserializer) (r : Nat) : Deserializer :=
  { s with options := { s.options with recursion_limit := r } }

/-- `Deserializer::deserialize` exactly as written in the source: the
`check_recursion!` prologue decrements the `u8` budget (wrapping) and
bails when the decremented value is zero; then the identity strategy runs;
a resolved type definition reaches `todo!()` — modelled as `none`, a
panic; an unresolved identity yields `Value::Empty` and only then does the
epilogue restore the budget. Error returns (`bail!` and `?`) skip the
epilogue, as in the source. -/
def deserialize (ident : IdentityStrategy) (self : Deserializer) :
    Option (Except DeError Value × Deserializer) :=
  let r1 := (self.options.recursion_limit + 255) % 256
  let s1 := setLimit self r1
  if r1 = 0 then
    some (.error .RecursionLimitExceeded, s1)
  else
    match ident s1.reader with
    | .error e => some (.error e, s1)
    | .ok (some _, _) => none
    | .ok (none, rd') =>
      some (.ok .Empty, setLimit { s1 with reader := rd' } ((r1 + 1) % 256))

/-- Modelled from the spec: field reconstruction (4.5 step 3) — the body
of `deserialize` for a resolved type definition is `todo!()` in the
source, so it is reconstructed from the specification here: fields are
visited in wire order; a field whose flags do not intersect the property
mask is skipped; a DELTA_ENCODE field (unless FORBID_DELTA_ENCODE is
active) carries a presence bit and is omitted when it is clear; otherwise
its value is decoded — a one-byte primitive directly, a nested object via
the supplied recursive decoder `deser`. Errors abort the whole call. -/
def deserializeFields (deser : Deserializer → Option (Except DeError Value × Deserializer)) :
    List PropField → Deserializer → Option (Except DeError (List (String × Value)) × Deserializer)
  | [], s => some (.ok [], s)
  | f :: fs, s =>
    if f.flags &&& s.options.property_mask = 0 then
      deserializeFields deser fs s
    else if f.flags &&& PROP_DELTA_ENCODE ≠ 0 ∧ ¬hasFlag s.options.flags FORBID_DELTA_ENCODE then
      match s.reader.read_bit with
      | .error e => some (.error e, s)
      | .ok (present, rd') =>
        if present then
          match f.desc with
          | .prim_u8 =>
            match BitReader.load_u8 rd' with
            | .error e => some (.error e, { s with reader := rd' })
            | .ok (b, rd'') =>
              match deserializeFields deser fs { s with reader := rd'' } with
              | none => none
              | some (.error e, s') => some (.error e, s')
              | some (.ok rest, s') => some (.ok ((f.name, Value.Unsigned b) :: rest), s')
          | .obj =>
            match deser { s with reader := rd' } with
            | none => none
            | some (.error e, s') => some (.error e, s')
            | some (.ok v, s') =>
              match deserializeFields deser fs s' with
              | none => none
              | some (.error e, s'') => some (.error e, s'')
              | some (.ok rest, s'') => some (.ok ((f.name, v) :: rest), s'')
        else
          deserializeFields deser fs { s with reader := rd' }
    else
      match f.desc with
      | .prim_u8 =>
        match s.reader.load_u8 with
        | .error e => some (.error e, s)
        | .ok (b, rd') =>
          match deserializeFields deser fs { s with reader := rd' } with
          | none => none
          | some (.error e, s') => some (.error e, s')
          | some (.ok rest, s') => some (.ok ((f.name, Value.Unsigned b) :: rest), s')
      | .obj =>
        match deser s with
        | none => none
        | some (.error e, s') => some (.error e, s')
        | some (.ok v, s') =>
          match deserializeFields deser fs s' with
          | none => none
          | some (.error e, s'') => some (.error e, s'')
          | some (.ok rest, s'') => some (.ok ((f.name, v) :: rest), s'')

/-- Modelled from the spec: a one-byte identity strategy — reads a single
byte and looks it up in the registry (the concrete identity encodings are
registry-dependent and live outside this slice; the spec only requires
that a strategy consume its bytes and yield an optional type
definition). -/
def identByte (types : Nat → Option TypeDef) (r : BitReader) :
    Except DeError (Option TypeDef × BitReader) :=
  match r.load_u8 with
  | .error e => .error e
  | .ok (b, r') => .ok (types b, r')

/-- Modelled from the spec: `deserialize` with the field-reconstruction
body filled in from the specification (the source's body is `todo!()`).
The `check_recursion!` accounting — wrapping `u8` decrement, bail when the
decremented budget is zero, restore only on the successful exit — is taken
verbatim from the source macro. `fuel` is a structural-recursion bound
only; every theorem below supplies more fuel than the budget permits call
depth, so the `none` fuel branch is never reached in them. -/
def deserializeFull (types : Nat → Option TypeDef) :
    Nat → Deserializer → Option (Except DeError Value × Deserializer)
  | 0, _ => none
  | fuel + 1, self =>
    let r1 := (self.options.recursion_limit + 255) % 256
    let s1 := setLimit self r1
    if r1 = 0 then
      some (.error .RecursionLimitExceeded, s1)
    else
      match identByte types s1.reader with
      | .error e => some (.error e, s1)
      | .ok (none, rd') =>
        some (.ok .Empty, setLimit { s1 with reader := rd' } ((r1 + 1) % 256))
      | .ok (some td, rd') =>
        match deserializeFields (fun s => deserializeFull types fuel s) td
            { s1 with reader := rd' } with
        | none => none
        | some (.error e, s') => some (.error e, s')
        | some (.ok fields, s') =>
          some (.ok (.Object fields),
            setLimit s' ((s'.options.recursion_limit + 1) % 256))

/-- A synthetic registry for recursion-budget experiments: identity 2 is a
type with a single nested-object field, identity 1 a type with a single
one-byte field; anything else is unknown. -/
def chainTypes : Nat → Option TypeDef
  | 2 => some [⟨"next", .obj, PROP_TRANSMIT⟩]
  | 1 => some [⟨"v", .prim_u8, PROP_TRANSMIT⟩]
  | _ => none

/-- Wire bytes of a chain nested `k + 1` objects deep: `k` identities of
the object-field type, one identity of the byte-field type, then the
payload byte. -/
def chainTail (p : Nat) : Nat → List Nat
  | 0 => [1, p]
  | k + 1 => 2 :: chainTail p k

/-- The value a depth-`k + 1` chain decodes to. -/
def chainValue (p : Nat) : Nat → Value
  | 0 => .Object [("v", .Unsigned p)]
  | k + 1 => .Object [("next", chainValue p k)]

/-- Options with the given recursion limit and otherwise-default fields
(flags empty, default property mask). -/
def mkOpts (r : Nat) : DeserializerOptions :=
  { DeserializerOptions.default with recursion_limit := r }

/-- Two's-complement sign extension as the specification words it: if bit
`n - 1` of the raw `n`-bit value is set, all higher-order bits of the
result are set — i.e. the value reads as `v - 2 ^ n` — otherwise the value
is unchanged. -/
def signExtendSpec (n v : Nat) : Int :=
  if v.testBit (n - 1) then (v : Int) - 2 ^ n else (v : Int)

/-- An identity strategy that reads a 4-byte identity and never resolves a
type (every identity is unknown to its registry). -/
def identU32None : IdentityStrategy := fun r =>
  match r.load_u32 with
  | .error e => .error e
  | .ok (_, r') => .ok (none, r')

/-- An identity strategy that reads a 4-byte identity and resolves every
nonzero identity to an (empty) type definition. -/
def identU32Resolve : IdentityStrategy := fun r =>
  match r.load_u32 with
  | .error e => .error e
  | .ok (b, r') => .ok (if b = 0 then none else some [], r')

/-- A zlib stand-in that rejects every payload. -/
def zlibNone : List Nat → Option (List Nat) := fun _ => none

/-- A zlib stand-in that decompresses every payload to `[7, 7]`. -/
def zlibTwoSevens : List Nat → Option (List Nat) := fun _ => some [7, 7]

/-- An eight-byte buffer whose 64 bits read as the value `2 ^ 63` (only
the most significant bit set). -/
def r64 : BitReader := BitReader.new [0, 0, 0, 0, 0, 0, 0, 128]

/-- C1: for every call to `Deserializer::deserialize`, one unit of the
recursion budget is consumed on entry and restored on every exit path,
so that after the call — value or error — the budget equals its entry
value. The code violates this: the `check_recursion!` macro restores the
budget only on the successful exit, so an error exit (here: the identity
strategy fails with `Truncated` on an empty buffer, entry budget 5) leaves
the budget at 4. -/
theorem c1_budget_leaks_on_error :
    deserialize identU32None ⟨BitReader.new [], mkOpts 5⟩ =
      some (.error .Truncated, ⟨BitReader.new [], mkOpts 4⟩) := by
  rfl

/-- C3: the claim that deserialize never panics — returning a value or an
explicit error for every input and configuration — fails on the code: when
the identity strategy resolves a type definition (identity 1 here),
`deserialize` reaches `todo!()` and aborts, modelled as `none`. -/
theorem c3_deserialize_panics_when_resolved :
    deserialize identU32Resolve ⟨BitReader.new [1, 0, 0, 0], mkOpts 5⟩ = none := by
  rfl

/-- C7: when the identity strategy resolves no type, `deserialize` returns
the `Empty` value (not an error) and the cursor ends exactly where the
strategy left it — no bytes are consumed beyond the strategy's own read.
The budget epilogue restores the decremented limit. -/
theorem c7_unresolved_identity_yields_empty (ident : IdentityStrategy) (s : Deserializer)
    (rd' : BitReader) (hid : ident s.reader = .ok (none, rd'))
    (hr : (s.options.recursion_limit + 255) % 256 ≠ 0) :
    deserialize ident s =
      some (.ok .Empty,
        ⟨rd', { s.options with
                recursion_limit := ((s.options.recursion_limit + 255) % 256 + 1) % 256 }⟩) := by
  simp only [deserialize, hr, if_false, setLimit, hid]

/-- C7 witness: a concrete unresolved decode — four identity bytes are
consumed, the result is `Empty`, the budget returns to 5. -/
theorem c7_witness :
    identU32None (BitReader.new [9, 9, 9, 9, 5]) = .ok (none, ⟨[9, 9, 9, 9, 5], 32⟩) ∧
    deserialize identU32None ⟨BitReader.new [9, 9, 9, 9, 5], mkOpts 5⟩ =
      some (.ok .Empty, ⟨⟨[9, 9, 9, 9, 5], 32⟩, mkOpts 5⟩) :=
  ⟨by rfl, c7_unresolved_identity_yields_empty identU32None _ _ (by rfl) (by decide)⟩

/-- C10: whenever the identity strategy resolves a known type definition,
`deserialize` aborts via the `todo!()` panic (modelled `none`) instead of
returning; and any computable outcome (`some`) arises only from the
pre-identity recursion bail, an identity-strategy error, or the
unresolved-identity `Empty` path. -/
theorem c10_resolved_identity_panics (ident : IdentityStrategy) (s : Deserializer) :
    (∀ td rd', ident s.reader = .ok (some td, rd') →
      (s.options.recursion_limit + 255) % 256 ≠ 0 → deserialize ident s = none) ∧
    (∀ out, deserialize ident s = some out →
      (s.options.recursion_limit + 255) % 256 = 0 ∨
      (∃ e, ident s.reader = .error e) ∨ ∃ rd', ident s.reader = .ok (none, rd')) := by
  constructor
  · intro td rd' hid hr
    have hid' : ident (setLimit s ((s.options.recursion_limit + 255) % 256)).reader =
        .ok (some td, rd') := hid
    simp only [deserialize, hr, if_false, hid']
  · intro out hout
    by_cases hr : (s.options.recursion_limit + 255) % 256 = 0
    · exact Or.inl hr
    · right
      have hsr : (setLimit s ((s.options.recursion_limit + 255) % 256)).reader = s.reader := rfl
      simp only [deserialize, hr, if_false] at hout
      match h : ident s.reader with
      | .error e => exact Or.inl ⟨e, rfl⟩
      | .ok (none, rd') => exact Or.inr ⟨rd', rfl⟩
      | .ok (some td, rd') =>
        rw [hsr] at hout
        rw [h] at hout
        exact absurd hout (by simp)

/-- C10 witness: a concrete resolving input aborts, and the concrete
`Empty` outcome of `c7_witness`'s input is classified by the second
conjunct. -/
theorem c10_witness :
    deserialize identU32Resolve ⟨BitReader.new [2, 0, 0, 0], mkOpts 5⟩ = none :=
  (c10_resolved_identity_panics identU32Resolve ⟨BitReader.new [2, 0, 0, 0], mkOpts 5⟩).1
    [] ⟨[2, 0, 0, 0], 32⟩ (by rfl) (by decide)

theorem and31_absorb (f : Nat) (hf : 31 &&& f = f) (w : Nat) : w &&& 31 &&& f = w &&& f := by
  rw [Nat.and_assoc, hf]

/-- C9: a stateful flags word with bits outside the five defined
SerializerFlags bits is silently truncated, never rejected: the truncated
set lies within the defined bits, agrees with the raw word on every
defined bit, and priming with such a word succeeds (here in automatic
mode with compression clear), installing exactly the known bits. -/
theorem c9_unknown_flag_bits_ignored (zlib : List Nat → Option (List Nat)) (s : Deserializer)
    (w0 w1 w2 w3 : Nat) (rest : List Nat)
    (hst : hasFlag s.options.flags STATEFUL_FLAGS = true)
    (hmc : s.options.manual_compression = false)
    (hnc : leVal [w0, w1, w2, w3] &&& WITH_COMPRESSION = 0) :
    from_bits_truncate (leVal [w0, w1, w2, w3]) ≤ ALL_SERIALIZER_FLAGS ∧
    (∀ f, f ∈ [STATEFUL_FLAGS, COMPACT_LENGTH_PREFIXES, HUMAN_READABLE_ENUMS,
        WITH_COMPRESSION, FORBID_DELTA_ENCODE] →
      hasFlag (from_bits_truncate (leVal [w0, w1, w2, w3])) f =
        hasFlag (leVal [w0, w1, w2, w3]) f) ∧
    feed_data zlib s (w0 :: w1 :: w2 :: w3 :: rest) =
      .ok { s with reader := BitReader.new rest,
                   options := { s.options with
                                flags := from_bits_truncate (leVal [w0, w1, w2, w3]) } } := by
  have hnc8 : leVal [w0, w1, w2, w3] &&& 8 = 0 := hnc
  refine ⟨Nat.and_le_right, ?_, ?_⟩
  · intro f hf
    fin_cases hf
    · simp [hasFlag, from_bits_truncate, ALL_SERIALIZER_FLAGS, STATEFUL_FLAGS,
        and31_absorb 1 (by decide)]
    · simp [hasFlag, from_bits_truncate, ALL_SERIALIZER_FLAGS, COMPACT_LENGTH_PREFIXES,
        and31_absorb 2 (by decide)]
    · simp [hasFlag, from_bits_truncate, ALL_SERIALIZER_FLAGS, HUMAN_READABLE_ENUMS,
        and31_absorb 4 (by decide)]
    · simp [hasFlag, from_bits_truncate, ALL_SERIALIZER_FLAGS, WITH_COMPRESSION,
        and31_absorb 8 (by decide)]
    · simp [hasFlag, from_bits_truncate, ALL_SERIALIZER_FLAGS, FORBID_DELTA_ENCODE,
        and31_absorb 16 (by decide)]
  · have hcomp : hasFlag (from_bits_truncate (leVal [w0, w1, w2, w3])) WITH_COMPRESSION = false := by
      simp [hasFlag, from_bits_truncate, ALL_SERIALIZER_FLAGS, WITH_COMPRESSION,
        and31_absorb 8 (by decide), hnc8]
    simp only [feed_data, hmc, Bool.false_eq_true, if_false, hst, if_true, sliceReadU32,
      hcomp, Bool.false_eq_true]

/-- C9 witness: the word `0xFFFF_FFF5` (all unknown high bits set,
STATEFUL and COMPACT and FORBID plus junk) primes successfully and the
installed flags are exactly its five known bits. -/
theorem c9_witness :
    hasFlag (mkOpts 5).flags STATEFUL_FLAGS = false ∧
    feed_data zlibNone
        ⟨BitReader.new [], { mkOpts 5 with flags := STATEFUL_FLAGS }⟩
        (245 :: 255 :: 255 :: 255 :: [1, 2, 3]) =
      .ok ⟨BitReader.new [1, 2, 3],
        { mkOpts 5 with flags := from_bits_truncate (leVal [245, 255, 255, 255]) }⟩ :=
  ⟨by decide,
    (c9_unknown_flag_bits_ignored zlibNone
      ⟨BitReader.new [], { mkOpts 5 with flags := STATEFUL_FLAGS }⟩
      245 255 255 255 [1, 2, 3] (by decide) (by decide) (by decide)).2.2⟩

/-- C2: in automatic mode with STATEFUL configured, `feed_data` first
consumes the raw buffer's leading 4 bytes as a little-endian flags word
replacing the configured flags, before any compression check; exactly
when the replaced flags contain WITH_COMPRESSION one indicator byte is
read — nonzero selects the `[4-byte LE size][zlib payload]` branch
(`decompress_data`), zero uses the remaining bytes directly — and when
they do not, no indicator is read and the remaining bytes are the cursor.
The replaced word alone decides the branch, regardless of the caller's
initial compression setting. -/
theorem c2_stateful_priming (zlib : List Nat → Option (List Nat)) (s : Deserializer)
    (w0 w1 w2 w3 : Nat) (rest : List Nat)
    (hst : hasFlag s.options.flags STATEFUL_FLAGS = true)
    (hmc : s.options.manual_compression = false) :
    (hasFlag (from_bits_truncate (leVal [w0, w1, w2, w3])) WITH_COMPRESSION = false →
      feed_data zlib s (w0 :: w1 :: w2 :: w3 :: rest) =
        .ok { s with reader := BitReader.new rest,
                     options := { s.options with
                                  flags := from_bits_truncate (leVal [w0, w1, w2, w3]) } }) ∧
    (hasFlag (from_bits_truncate (leVal [w0, w1, w2, w3])) WITH_COMPRESSION = true →
      (rest = [] →
        feed_data zlib s (w0 :: w1 :: w2 :: w3 :: rest) = .error .Truncated) ∧
      (∀ b rest', rest = b :: rest' → b ≠ 0 →
        feed_data zlib s (w0 :: w1 :: w2 :: w3 :: rest) =
          match decompress_data zlib rest' with
          | .error e => .error e
          | .ok rd =>
            .ok { s with reader := rd,
                         options := { s.options with
                                      flags := from_bits_truncate (leVal [w0, w1, w2, w3]) } }) ∧
      (∀ rest', rest = 0 :: rest' →
        feed_data zlib s (w0 :: w1 :: w2 :: w3 :: rest) =
          .ok { s with reader := BitReader.new rest',
                       options := { s.options with
                                    flags := from_bits_truncate (leVal [w0, w1, w2, w3]) } })) := by
  constructor
  · intro hnc
    simp only [feed_data, hmc, Bool.false_eq_true, if_false, hst, if_true, sliceReadU32,
      hnc]
  · intro hc
    refine ⟨?_, ?_, ?_⟩
    · intro hrest
      subst hrest
      simp only [feed_data, hmc, Bool.false_eq_true, if_false, hst, if_true, sliceReadU32,
        hc, if_true, sliceReadU8]
    · intro b rest' hrest hb
      subst hrest
      simp only [feed_data, hmc, Bool.false_eq_true, if_false, hst, if_true, sliceReadU32,
        hc, if_true, sliceReadU8, hb, ne_eq, not_false_iff, ite_true]
    · intro rest' hrest
      subst hrest
      simp only [feed_data, hmc, Bool.false_eq_true, if_false, hst, if_true, sliceReadU32,
        hc, if_true, sliceReadU8, ne_eq, not_true, ite_false]

/-- C2 witness: a caller with compression disabled but STATEFUL set primes
a buffer whose flags word is `STATEFUL_FLAGS ||| WITH_COMPRESSION = 9`;
the indicator byte 0 is consumed and the remaining bytes become the
cursor — the compressed-branch logic ran even though the caller's options
had no compression bit. -/
theorem c2_witness :
    hasFlag (from_bits_truncate (leVal [9, 0, 0, 0])) WITH_COMPRESSION = true ∧
    feed_data zlibNone ⟨BitReader.new [], { mkOpts 5 with flags := STATEFUL_FLAGS }⟩
        (9 :: 0 :: 0 :: 0 :: [0, 42]) =
      .ok ⟨BitReader.new [42], { mkOpts 5 with flags := from_bits_truncate (leVal [9, 0, 0, 0]) }⟩ :=
  ⟨by decide,
    ((c2_stateful_priming zlibNone ⟨BitReader.new [], { mkOpts 5 with flags := STATEFUL_FLAGS }⟩
        9 0 0 0 [0, 42] (by decide) (by decide)).2 (by decide)).2.2 [42] rfl⟩

/-- C6: in manual compression mode, `feed_data` reads a 4-byte
little-endian size, decompresses the rest, and fails with
`CompressionSizeMismatch` exactly when the decompressed length differs
from the declared size; on success the cursor covers the decompressed
bytes, and with STATEFUL set the first 4 decompressed bytes are consumed
as the little-endian flags word replacing the configured flags. -/
theorem c6_manual_mode (zlib : List Nat → Option (List Nat)) (s : Deserializer)
    (s0 s1 s2 s3 : Nat) (rest out : List Nat)
    (hmc : s.options.manual_compression = true)
    (hz : zlib rest = some out) :
    (out.length ≠ leVal [s0, s1, s2, s3] →
      feed_data zlib s (s0 :: s1 :: s2 :: s3 :: rest) = .error .CompressionSizeMismatch) ∧
    (out.length = leVal [s0, s1, s2, s3] →
      feed_data zlib s (s0 :: s1 :: s2 :: s3 :: rest) ≠ .error .CompressionSizeMismatch ∧
      (hasFlag s.options.flags STATEFUL_FLAGS = false →
        feed_data zlib s (s0 :: s1 :: s2 :: s3 :: rest) =
          .ok { s with reader := BitReader.new out }) ∧
      (hasFlag s.options.flags STATEFUL_FLAGS = true →
        ∀ f0 f1 f2 f3 out', out = f0 :: f1 :: f2 :: f3 :: out' →
          feed_data zlib s (s0 :: s1 :: s2 :: s3 :: rest) =
            .ok { s with reader := ⟨out, 32⟩,
                         options := { s.options with
                                      flags := from_bits_truncate (leVal [f0, f1, f2, f3]) } })) := by
  have hdec : decompress_data zlib (s0 :: s1 :: s2 :: s3 :: rest) =
      if out.length ≠ leVal [s0, s1, s2, s3] then .error .CompressionSizeMismatch
      else .ok (BitReader.new out) := by
    simp only [decompress_data, sliceReadU32, hz]
  constructor
  · intro hne
    rw [if_pos hne] at hdec
    simp only [feed_data, hmc, if_true, hdec]
  · intro heq
    rw [if_neg (by simp [heq])] at hdec
    refine ⟨?_, ?_, ?_⟩
    · by_cases hst : hasFlag s.options.flags STATEFUL_FLAGS = true
      · by_cases h4 : out.length ≥ 4
        · simp only [feed_data, hmc, if_true, hdec, hst]
          simp [BitReader.load_u32, BitReader.load_n, BitReader.new, h4]
        · have h4' : ¬(0 / 8 + 4 ≤ out.length) := by omega
          simp only [feed_data, hmc, if_true, hdec, hst, if_true, BitReader.load_u32,
            BitReader.load_n, BitReader.new, h4', if_false]
          simp
      · simp only [feed_data, hmc, if_true, hdec, Bool.not_eq_true] at hst ⊢
        simp [hst]
    · intro hst
      simp only [feed_data, hmc, if_true, hdec, hst, Bool.false_eq_true, if_false]
    · intro hst f0 f1 f2 f3 out' hout
      subst hout
      simp only [feed_data, hmc, if_true, hdec, hst, if_true]
      simp [BitReader.load_u32, BitReader.load_n, BitReader.new, leVal]

/-- C6 witness: declared size 2, decompressed output `[7, 7]` of length 2,
caller flags empty: priming succeeds with the cursor over the decompressed
bytes; and the `CompressionSizeMismatch` outcome is ruled out. -/
theorem c6_witness :
    zlibTwoSevens [99] = some [7, 7] ∧
    feed_data zlibTwoSevens ⟨BitReader.new [], { mkOpts 5 with manual_compression := true }⟩
        (2 :: 0 :: 0 :: 0 :: [99]) =
      .ok ⟨BitReader.new [7, 7], { mkOpts 5 with manual_compression := true }⟩ :=
  ⟨rfl,
    ((c6_manual_mode zlibTwoSevens
        ⟨BitReader.new [], { mkOpts 5 with manual_compression := true }⟩
        2 0 0 0 [99] [7, 7] (by decide) rfl).2 (by decide)).2.1 (by decide)⟩

theorem realign_idem (r : BitReader) :
    r.realign_to_byte.realign_to_byte = r.realign_to_byte := by
  unfold BitReader.realign_to_byte
  dsimp only
  congr 1
  omega

theorem realign_mod8 (r : BitReader) : r.realign_to_byte.pos % 8 = 0 := by
  unfold BitReader.realign_to_byte
  dsimp only
  omega

theorem bitGet_le_one (data : List Nat) (i : Nat) : bitGet data i ≤ 1 :=
  Nat.and_le_right

theorem bitsValFrom_lt (data : List Nat) : ∀ n p, bitsValFrom data p n < 2 ^ n := by
  intro n
  induction n with
  | zero => intro p; simp [bitsValFrom]
  | succ n ih =>
    intro p
    have h1 := bitGet_le_one data p
    have h2 := ih (p + 1)
    simp only [bitsValFrom, pow_succ]
    omega

theorem read_bit_ok (data : List Nat) (p : Nat) (h : p < 8 * data.length) :
    BitReader.read_bit ⟨data, p⟩ = .ok (decide (bitGet data p = 1), ⟨data, p + 1⟩) := by
  unfold BitReader.read_bit
  dsimp only
  rw [if_pos h]

theorem read_value_bits_ok (data : List Nat) (p n : Nat) (h : p + n ≤ 8 * data.length) :
    BitReader.read_value_bits ⟨data, p⟩ n = .ok (bitsValFrom data p n, ⟨data, p + n⟩) := by
  unfold BitReader.read_value_bits
  dsimp only
  rw [if_pos h]

theorem compact_small (data : List Nat) (p : Nat) (h0 : bitGet data p = 0)
    (h8 : p + 8 ≤ 8 * data.length) :
    read_compact_length_prefix ⟨data, p⟩ =
      .ok (bitsValFrom data (p + 1) 7, ⟨data, p + 8⟩) := by
  have hb : BitReader.read_bit ⟨data, p⟩ = .ok (false, ⟨data, p + 1⟩) := by
    rw [read_bit_ok data p (by omega)]
    simp [h0]
  unfold read_compact_length_prefix
  rw [hb]
  dsimp only
  rw [if_neg Bool.false_ne_true]
  rw [read_value_bits_ok data (p + 1) 7 (by omega)]

theorem compact_large (data : List Nat) (p : Nat) (h1 : bitGet data p = 1)
    (h32 : p + 32 ≤ 8 * data.length) :
    read_compact_length_prefix ⟨data, p⟩ =
      .ok (bitsValFrom data (p + 1) 31, ⟨data, p + 32⟩) := by
  have hb : BitReader.read_bit ⟨data, p⟩ = .ok (true, ⟨data, p + 1⟩) := by
    rw [read_bit_ok data p (by omega)]
    simp [h1]
  unfold read_compact_length_prefix
  rw [hb]
  dsimp only
  rw [if_pos rfl]
  rw [read_value_bits_ok data (p + 1) 31 (by omega)]

/-- C4: both length reads realign the cursor to a byte boundary first,
whatever the compaction mode. With COMPACT_LENGTH_PREFIXES the length then
takes exactly 8 bits (clear flag bit plus 7 value bits, values 0–127) or
exactly 32 bits (set flag bit plus 31 value bits); with compaction off,
string lengths are a fixed 16-bit field and sequence lengths a fixed
32-bit field. -/
theorem c4_length_reads (o : DeserializerOptions) (r : BitReader) :
    (read_str_len o r = read_str_len o r.realign_to_byte ∧
     read_seq_len o r = read_seq_len o r.realign_to_byte) ∧
    (hasFlag o.flags COMPACT_LENGTH_PREFIXES = true →
      (bitGet r.data r.realign_to_byte.pos = 0 →
        r.realign_to_byte.pos + 8 ≤ 8 * r.data.length →
        ∃ v, v < 128 ∧
          read_str_len o r = .ok (v, ⟨r.data, r.realign_to_byte.pos + 8⟩) ∧
          read_seq_len o r = .ok (v, ⟨r.data, r.realign_to_byte.pos + 8⟩)) ∧
      (bitGet r.data r.realign_to_byte.pos = 1 →
        r.realign_to_byte.pos + 32 ≤ 8 * r.data.length →
        ∃ v, v < 2 ^ 31 ∧
          read_str_len o r = .ok (v, ⟨r.data, r.realign_to_byte.pos + 32⟩) ∧
          read_seq_len o r = .ok (v, ⟨r.data, r.realign_to_byte.pos + 32⟩))) ∧
    (hasFlag o.flags COMPACT_LENGTH_PREFIXES = false →
      (r.realign_to_byte.pos + 16 ≤ 8 * r.data.length →
        ∃ v, read_str_len o r = .ok (v, ⟨r.data, r.realign_to_byte.pos + 16⟩)) ∧
      (r.realign_to_byte.pos + 32 ≤ 8 * r.data.length →
        ∃ v, read_seq_len o r = .ok (v, ⟨r.data, r.realign_to_byte.pos + 32⟩))) := by
  have hdata : r.realign_to_byte.data = r.data := rfl
  have hmod := realign_mod8 r
  refine ⟨⟨?_, ?_⟩, ?_, ?_⟩
  · simp only [read_str_len, realign_idem]
  · simp only [read_seq_len, realign_idem]
  · intro hc
    have hre : r.realign_to_byte = ⟨r.data, r.realign_to_byte.pos⟩ := rfl
    constructor
    · intro h0 h8
      refine ⟨bitsValFrom r.data (r.realign_to_byte.pos + 1) 7, ?_, ?_, ?_⟩
      · exact bitsValFrom_lt r.data 7 _
      · simp only [read_str_len, hc, if_true]
        rw [hre]
        exact compact_small r.data r.realign_to_byte.pos h0 h8
      · simp only [read_seq_len, hc, if_true]
        rw [hre]
        exact compact_small r.data r.realign_to_byte.pos h0 h8
    · intro h1 h32
      refine ⟨bitsValFrom r.data (r.realign_to_byte.pos + 1) 31, ?_, ?_, ?_⟩
      · exact bitsValFrom_lt r.data 31 _
      · simp only [read_str_len, hc, if_true]
        rw [hre]
        exact compact_large r.data r.realign_to_byte.pos h1 h32
      · simp only [read_seq_len, hc, if_true]
        rw [hre]
        exact compact_large r.data r.realign_to_byte.pos h1 h32
  · intro hc
    constructor
    · intro h16
      refine ⟨leVal ((r.data.drop (r.realign_to_byte.pos / 8)).take 2), ?_⟩
      simp only [read_str_len, hc, Bool.false_eq_true, if_false, BitReader.load_u16,
        BitReader.load_n, hdata]
      rw [if_pos (by omega)]
      have hp : (r.realign_to_byte.pos / 8 + 2) * 8 = r.realign_to_byte.pos + 16 := by omega
      rw [hp]
    · intro h32
      refine ⟨leVal ((r.data.drop (r.realign_to_byte.pos / 8)).take 4), ?_⟩
      simp only [read_seq_len, hc, Bool.false_eq_true, if_false, BitReader.load_u32,
        BitReader.load_n, hdata]
      rw [if_pos (by omega)]
      have hp : (r.realign_to_byte.pos / 8 + 4) * 8 = r.realign_to_byte.pos + 32 := by omega
      rw [hp]

/-- C4 witness: with compaction on, a cursor three bits into the byte
`0x02` realigns to bit 8 and the next byte `0x02` (clear flag bit, value
bits encoding 1) reads as length 1 consuming exactly 8 bits. -/
theorem c4_witness :
    bitGet [2, 2] 8 = 0 ∧
    ∃ v, v < 128 ∧
      read_str_len { mkOpts 5 with flags := COMPACT_LENGTH_PREFIXES } ⟨[2, 2], 3⟩ =
        .ok (v, ⟨[2, 2], 16⟩) ∧
      read_seq_len { mkOpts 5 with flags := COMPACT_LENGTH_PREFIXES } ⟨[2, 2], 3⟩ =
        .ok (v, ⟨[2, 2], 16⟩) :=
  ⟨by decide,
    ((c4_length_reads { mkOpts 5 with flags := COMPACT_LENGTH_PREFIXES } ⟨[2, 2], 3⟩).2.1
      (by decide)).1 (by decide) (by decide)⟩

theorem shl_allones (n : Nat) (hn : n ≤ 63) : rustShlMaskedAllOnes n = 2 ^ 64 - 2 ^ n := by
  have hmod : n % 64 = n := Nat.mod_eq_of_lt (by omega)
  have e1 : (2 : Nat) ^ n ≤ 2 ^ 64 := Nat.pow_le_pow_right (by norm_num) (by omega)
  have e2 : (1 : Nat) ≤ 2 ^ n := Nat.one_le_two_pow
  have e4 : (1 : Nat) ≤ 2 ^ 64 := Nat.one_le_two_pow
  have h1 : (2 ^ 64 - 1) * 2 ^ n = 2 ^ 64 * (2 ^ n - 1) + (2 ^ 64 - 2 ^ n) := by
    zify [e1, e2, e4]
    ring
  unfold rustShlMaskedAllOnes
  rw [hmod, Nat.shiftLeft_eq, h1, Nat.mul_add_mod]
  exact Nat.mod_eq_of_lt (by omega)

theorem two_pow_sub_split (n : Nat) (hn : n ≤ 64) :
    (2 : Nat) ^ 64 - 2 ^ n = 2 ^ n * (2 ^ (64 - n) - 1) := by
  have e3 : (2 : Nat) ^ n * 2 ^ (64 - n) = 2 ^ 64 := by
    rw [← pow_add]
    congr 1
    omega
  have e2 : (1 : Nat) ≤ 2 ^ (64 - n) := Nat.one_le_two_pow
  have e1 : (2 : Nat) ^ n ≤ 2 ^ 64 := Nat.pow_le_pow_right (by norm_num) (by omega)
  zify [e1, e2]
  have e3' : ((2 : Int)) ^ n * 2 ^ (64 - n) = 2 ^ 64 := by exact_mod_cast e3
  linear_combination -e3'

theorem lor_two_pow_mul (n v m : Nat) (hv : v < 2 ^ n) :
    v ||| 2 ^ n * m = 2 ^ n * m + v := by
  rw [Nat.lor_comm]
  exact (Nat.mul_add_lt_is_or hv m).symm

theorem lt_half_of_msb_clear (n v : Nat) (h1 : 1 ≤ n) (hv : v < 2 ^ n)
    (ht : v.testBit (n - 1) = false) : v < 2 ^ (n - 1) := by
  apply Nat.lt_pow_two_of_testBit
  intro i hi
  rcases Nat.eq_or_lt_of_le hi with h | h
  · rw [← h]; exact ht
  · exact Nat.testBit_lt_two_pow (lt_of_lt_of_le hv (Nat.pow_le_pow_right (by norm_num) (by omega)))

theorem signext_arith (n v : Nat) (h1 : 1 ≤ n)
    (hb : n ≤ 63 ∨ (n = 64 ∧ v.testBit 63 = false)) (hv : v < 2 ^ n) :
    (if v &&& 1 <<< (n - 1) ≠ 0 then i64OfBits (v ||| rustShlMaskedAllOnes n)
     else i64OfBits v) = signExtendSpec n v := by
  have hshift : (1 : Nat) <<< (n - 1) = 2 ^ (n - 1) := Nat.one_shiftLeft _
  have hand : v &&& 2 ^ (n - 1) = (v.testBit (n - 1)).toNat * 2 ^ (n - 1) :=
    Nat.and_two_pow v (n - 1)
  by_cases ht : v.testBit (n - 1) = true
  · have hn63 : n ≤ 63 := by
      rcases hb with h | ⟨hn, hbit⟩
      · exact h
      · subst hn
        rw [show (64 : Nat) - 1 = 63 from rfl] at ht
        rw [hbit] at ht
        exact absurd ht (by simp)
    have hcond : v &&& 1 <<< (n - 1) ≠ 0 := by
      rw [hshift, hand, ht]
      simp
    rw [if_pos hcond]
    rw [shl_allones n hn63, two_pow_sub_split n (by omega),
      lor_two_pow_mul n v _ hv, ← two_pow_sub_split n (by omega)]
    have e1 : (2 : Nat) ^ n ≤ 2 ^ 63 := Nat.pow_le_pow_right (by norm_num) (by omega)
    have e2 : (1 : Nat) ≤ 2 ^ n := Nat.one_le_two_pow
    have e3 : (2 : Nat) ^ 63 + 2 ^ 63 = 2 ^ 64 := by norm_num [pow_succ]
    have e4 : (2 : Nat) ^ n ≤ 2 ^ 64 := by omega
    unfold i64OfBits signExtendSpec
    rw [if_neg (by omega), if_pos ht, Nat.cast_add, Nat.cast_sub e4]
    push_cast
    ring
  · have htf : v.testBit (n - 1) = false := by
      cases h : v.testBit (n - 1)
      · rfl
      · exact absurd h ht
    have hcond : ¬(v &&& 1 <<< (n - 1) ≠ 0) := by
      rw [hshift, hand, htf]
      simp
    rw [if_neg hcond]
    have hlt : v < 2 ^ (n - 1) := lt_half_of_msb_clear n v h1 hv htf
    have e1 : (2 : Nat) ^ (n - 1) ≤ 2 ^ 63 := by
      apply Nat.pow_le_pow_right (by norm_num)
      rcases hb with h | ⟨hn, _⟩ <;> omega
    unfold i64OfBits signExtendSpec
    rw [if_pos (by omega), if_neg (by rw [htf]; simp)]

/-- C5 counterexample: the claim includes n = 64, but there the source
computes `(!0i64) << 64` — a shift by the full width, masked to 0 in
release builds — so the raw pattern `2 ^ 63` (an 8-byte read with only the
top bit set) decodes to `-1` instead of its two's-complement sign
extension `-(2 ^ 63)`. -/
theorem c5_counterexample :
    deserialize_unsigned_bits r64 64 = .ok (2 ^ 63, ⟨r64.data, 64⟩) ∧
    deserialize_signed_bits r64 64 = .ok (-1, ⟨r64.data, 64⟩) ∧
    signExtendSpec 64 (2 ^ 63) = -(2 ^ 63 : Int) ∧ (-1 : Int) ≠ -(2 ^ 63) := by
  refine ⟨rfl, rfl, by decide, by decide⟩

/-- C5 (amended): for every n-bit signed field with 1 ≤ n ≤ 63 — and for
n = 64 when bit 63 of the raw value is clear — `deserialize_signed_bits`
returns the two's-complement sign extension of the raw n-bit value read by
`deserialize_unsigned_bits`: if bit n−1 is set the value reads as
`v - 2 ^ n`, otherwise it is returned unchanged. (The case n = 64 with
bit 63 set is excluded: there the source's shift overflows, see the
counterexample.) -/
theorem c5_sign_extension (n : Nat) (r r2 : BitReader) (v : Nat) (h1 : 1 ≤ n)
    (hb : n ≤ 63 ∨ (n = 64 ∧ v.testBit 63 = false))
    (hread : deserialize_unsigned_bits r n = .ok (v, r2)) :
    deserialize_signed_bits r n = .ok (signExtendSpec n v, r2) := by
  have hv : v < 2 ^ n := by
    unfold deserialize_unsigned_bits BitReader.read_value_bits at hread
    split at hread
    · injection hread with h
      injection h with h1 h2
      rw [← h1]
      exact bitsValFrom_lt r.data n r.pos
    · exact absurd hread (by simp)
  unfold deserialize_signed_bits
  rw [hread]
  dsimp only
  split
  · next hcond =>
    have := signext_arith n v h1 hb hv
    rw [if_pos hcond] at this
    rw [this]
  · next hcond =>
    have := signext_arith n v h1 hb hv
    rw [if_neg hcond] at this
    rw [this]

/-- C5 witness: the claim's own examples — for n = 8 the raw pattern 0xFF
decodes to −1, for n = 4 the pattern 0b1000 decodes to −8 and 0b0111
decodes to 7. -/
theorem c5_witness :
    deserialize_signed_bits (BitReader.new [255]) 8 = .ok (-1, ⟨[255], 8⟩) ∧
    deserialize_signed_bits (BitReader.new [8]) 4 = .ok (-8, ⟨[8], 4⟩) ∧
    deserialize_signed_bits (BitReader.new [7]) 4 = .ok (7, ⟨[7], 4⟩) := by
  refine ⟨?_, ?_, ?_⟩
  · have h := c5_sign_extension 8 (BitReader.new [255]) ⟨[255], 8⟩ 255 (by decide)
      (Or.inl (by decide)) rfl
    rw [h]
    rfl
  · have h := c5_sign_extension 4 (BitReader.new [8]) ⟨[8], 4⟩ 8 (by decide)
      (Or.inl (by decide)) rfl
    rw [h]
    rfl
  · have h := c5_sign_extension 4 (BitReader.new [7]) ⟨[7], 4⟩ 7 (by decide)
      (Or.inl (by decide)) rfl
    rw [h]
    rfl

theorem mkOpts_limit (r : Nat) : (mkOpts r).recursion_limit = r := rfl

theorem setLimit_mkOpts (r x : Nat) (rd : BitReader) :
    setLimit ⟨rd, mkOpts r⟩ x = ⟨rd, mkOpts x⟩ := rfl

theorem load_u8_at (pre : List Nat) (b : Nat) (rest : List Nat) :
    BitReader.load_u8 ⟨pre ++ b :: rest, 8 * pre.length⟩ =
      .ok (b, ⟨pre ++ b :: rest, 8 * (pre.length + 1)⟩) := by
  unfold BitReader.load_u8 BitReader.load_n
  dsimp only
  have h8 : 8 * pre.length / 8 = pre.length := by omega
  rw [h8]
  rw [if_pos (by simp)]
  rw [List.drop_left]
  have hmul : (pre.length + 1) * 8 = 8 * (pre.length + 1) := by omega
  simp [leVal, hmul]

theorem identByte_at (types : Nat → Option TypeDef) (pre : List Nat) (b : Nat)
    (rest : List Nat) :
    identByte types ⟨pre ++ b :: rest, 8 * pre.length⟩ =
      .ok (types b, ⟨pre ++ b :: rest, 8 * (pre.length + 1)⟩) := by
  unfold identByte
  rw [load_u8_at]

theorem chain_success : ∀ k fuel (pre : List Nat) r p, k + 2 ≤ r → r ≤ 255 → k + 2 ≤ fuel →
    deserializeFull chainTypes fuel ⟨⟨pre ++ chainTail p k, 8 * pre.length⟩, mkOpts r⟩ =
      some (.ok (chainValue p k),
        ⟨⟨pre ++ chainTail p k, 8 * (pre.length + k + 2)⟩, mkOpts r⟩) := by
  intro k
  induction k with
  | zero =>
    intro fuel pre r p hr hr255 hfuel
    obtain ⟨f, rfl⟩ : ∃ f, fuel = f + 1 := ⟨fuel - 1, by omega⟩
    have hr1 : (r + 255) % 256 = r - 1 := by omega
    have hr1ne : ¬(r - 1 = 0) := by omega
    have hrestore : (r - 1 + 1) % 256 = r := by omega
    have htail : chainTail p 0 = 1 :: [p] := rfl
    rw [htail]
    have hident := identByte_at chainTypes pre 1 [p]
    have hload := load_u8_at (pre ++ [1]) p []
    simp at hident hload
    simp [deserializeFull, deserializeFields, setLimit_mkOpts, mkOpts_limit, hr1, hr1ne,
      hident, hload, hrestore, chainValue, chainTypes, mkOpts, DeserializerOptions.default,
      PROP_TRANSMIT, PROP_PRIVILEGED_TRANSMIT, PROP_DELTA_ENCODE, FORBID_DELTA_ENCODE,
      hasFlag, setLimit]
  | succ k ih =>
    intro fuel pre r p hr hr255 hfuel
    obtain ⟨f, rfl⟩ : ∃ f, fuel = f + 1 := ⟨fuel - 1, by omega⟩
    have hr1 : (r + 255) % 256 = r - 1 := by omega
    have hr1ne : ¬(r - 1 = 0) := by omega
    have hrestore : (r - 1 + 1) % 256 = r := by omega
    have htail : chainTail p (k + 1) = 2 :: chainTail p k := rfl
    rw [htail]
    have hident := identByte_at chainTypes pre 2 (chainTail p k)
    have hnest := ih f (pre ++ [2]) (r - 1) p (by omega) (by omega) (by omega)
    simp [mkOpts, DeserializerOptions.default, PROP_TRANSMIT,
      PROP_PRIVILEGED_TRANSMIT] at hident hnest
    simp [deserializeFull, deserializeFields, setLimit_mkOpts, mkOpts_limit, hr1, hr1ne,
      hident, hnest, hrestore, chainValue, chainTypes, mkOpts, DeserializerOptions.default,
      PROP_TRANSMIT, PROP_PRIVILEGED_TRANSMIT, PROP_DELTA_ENCODE, FORBID_DELTA_ENCODE,
      hasFlag, setLimit]
    omega

theorem chain_fails : ∀ m k fuel (pre : List Nat) p, m + 1 ≤ k + 1 → m + 1 ≤ 255 →
    m + 1 ≤ fuel →
    deserializeFull chainTypes fuel ⟨⟨pre ++ chainTail p k, 8 * pre.length⟩, mkOpts (m + 1)⟩ =
      some (.error .RecursionLimitExceeded,
        ⟨⟨pre ++ chainTail p k, 8 * (pre.length + m)⟩, mkOpts 0⟩) := by
  intro m
  induction m with
  | zero =>
    intro k fuel pre p hk h255 hfuel
    obtain ⟨f, rfl⟩ : ∃ f, fuel = f + 1 := ⟨fuel - 1, by omega⟩
    have hr1 : ((0 + 1 : Nat) + 255) % 256 = 0 := by norm_num
    simp [deserializeFull, setLimit_mkOpts, mkOpts_limit, hr1, mkOpts,
      DeserializerOptions.default, PROP_TRANSMIT, PROP_PRIVILEGED_TRANSMIT, setLimit]
  | succ m ih =>
    intro k fuel pre p hk h255 hfuel
    obtain ⟨f, rfl⟩ : ∃ f, fuel = f + 1 := ⟨fuel - 1, by omega⟩
    obtain ⟨k', rfl⟩ : ∃ k', k = k' + 1 := ⟨k - 1, by omega⟩
    have hr1 : ((m + 1 + 1 : Nat) + 255) % 256 = m + 1 := by omega
    have hr1ne : ¬(m + 1 = 0) := by omega
    have htail : chainTail p (k' + 1) = 2 :: chainTail p k' := rfl
    rw [htail]
    have hident := identByte_at chainTypes pre 2 (chainTail p k')
    have hnest := ih k' f (pre ++ [2]) p (by omega) (by omega) (by omega)
    simp [mkOpts, DeserializerOptions.default, PROP_TRANSMIT,
      PROP_PRIVILEGED_TRANSMIT] at hident hnest
    simp [deserializeFull, deserializeFields, setLimit_mkOpts, mkOpts_limit, hr1, hr1ne,
      hident, hnest, chainTypes, mkOpts, DeserializerOptions.default,
      PROP_TRANSMIT, PROP_PRIVILEGED_TRANSMIT, PROP_DELTA_ENCODE, FORBID_DELTA_ENCODE,
      hasFlag, setLimit]
    omega

/-- C8 counterexample: with recursion limit 1, a graph nested exactly at
depth 1 (one object with a one-byte field) fails with
`RecursionLimitExceeded` — the decremented budget hits zero on the very
call at the limit — contradicting the claim that nesting exactly at the
configured limit succeeds. -/
theorem c8_counterexample :
    deserializeFull chainTypes 3 ⟨BitReader.new (chainTail 73 0), mkOpts 1⟩ =
      some (.error .RecursionLimitExceeded, ⟨BitReader.new (chainTail 73 0), mkOpts 0⟩) := rfl

/-- C8 (amended): with configured limit N, deserializing the synthetic
chain graph of object-nesting depth d fails with `RecursionLimitExceeded`
whenever d ≥ N (not only when d > N), and succeeds whenever d < N — one
level shallower than the claim states. The recursion accounting is the
source's `check_recursion!` (wrapping u8 decrement, bail at zero, restore
on success); the field-reconstruction body is modelled from the spec. -/
theorem c8_recursion_budget (N d p fuel : Nat) (hd : 1 ≤ d) (hN : N ≤ 255)
    (hf : d + 1 ≤ fuel) :
    (d < N →
      deserializeFull chainTypes fuel ⟨BitReader.new (chainTail p (d - 1)), mkOpts N⟩ =
        some (.ok (chainValue p (d - 1)),
          ⟨⟨chainTail p (d - 1), 8 * (d + 1)⟩, mkOpts N⟩)) ∧
    (1 ≤ N → N ≤ d →
      deserializeFull chainTypes fuel ⟨BitReader.new (chainTail p (d - 1)), mkOpts N⟩ =
        some (.error .RecursionLimitExceeded,
          ⟨⟨chainTail p (d - 1), 8 * (N - 1)⟩, mkOpts 0⟩)) := by
  constructor
  · intro hdN
    have h := chain_success (d - 1) fuel [] N p (by omega) hN (by omega)
    simp at h
    rw [show d - 1 + 2 = d + 1 by omega] at h
    exact h
  · intro hN1 hNd
    obtain ⟨m, rfl⟩ : ∃ m, N = m + 1 := ⟨N - 1, by omega⟩
    have h := chain_fails m (d - 1) fuel [] p (by omega) (by omega) (by omega)
    simp at h
    rw [show m + 1 - 1 = m by omega]
    exact h

/-- C8 witness: depth 1 under limit 3 succeeds (strictly below the limit),
by the amended theorem at concrete inputs. -/
theorem c8_witness :
    (1 : Nat) < 3 ∧
    deserializeFull chainTypes 4 ⟨BitReader.new (chainTail 73 0), mkOpts 3⟩ =
      some (.ok (chainValue 73 0), ⟨⟨chainTail 73 0, 16⟩, mkOpts 3⟩) :=
  ⟨by decide,
    (c8_recursion_budget 3 1 73 4 (by decide) (by decide) (by decide)).1 (by decide)⟩
